import Mathlib

/-!
# Verification of the LCT-commit file-backed memory store

Shallow embedding of the memory record store and query layer of the
repository (`scripts/agent_memory_integration.py` and
`scripts/cleanup_memories.py`).

Modelling conventions:

* A JSON value is modelled by the inductive `Value`; a Python dict by an
  association list `Dict := List (String × Value)` whose lookup takes the
  first matching key and whose insert replaces in place (Python dicts have
  unique keys, so the two models agree on every reachable state).
* Timestamps: the code stores `datetime.now().isoformat()` strings and
  compares them lexicographically; for a fixed format this order agrees with
  chronological order, so timestamps are modelled as integer seconds
  (`Value.vInt`).  `datetime.now()` becomes an explicit `now : Int`
  argument to each operation.  The epoch constant `"2025-01-01T00:00:00"`
  of the cleanup script becomes its Unix-seconds value.
* The store: one `Memory` per record file; the whole `memory/` tree is a
  `List Memory` whose list order abstracts the (unspecified) directory
  iteration order.  The cleanup script re-reads raw JSON, so its functions
  operate on raw top-level `Dict`s instead.
* Fallible paths (Python would raise, e.g. `fromisoformat` on a non-string,
  arithmetic on a non-integer `access_count`) are modelled with `Option`.
-/

/-- A JSON value: string, integer, list of strings, or nested object.
(Timestamps are integers, see the module docstring.) -/
inductive Value where
  | vStr : String → Value
  | vInt : Int → Value
  | vList : List String → Value
  | vDict : List (String × Value) → Value
deriving Repr

/-- A Python dict with string keys. -/
abbrev Dict := List (String × Value)

namespace Dict

/-- Python `d.get(k)` / `d[k]` lookup: first matching key. -/
def get? (d : Dict) (k : String) : Option Value :=
  match d with
  | [] => none
  | (k', v) :: rest => if k' = k then some v else get? rest k

/-- Python `d.get(k, default)`. -/
def getD (d : Dict) (k : String) (v₀ : Value) : Value :=
  (d.get? k).getD v₀

/-- Python `d[k] = v`: replace the binding in place, or append a new one. -/
def insert (d : Dict) (k : String) (v : Value) : Dict :=
  match d with
  | [] => [(k, v)]
  | (k', v') :: rest =>
      if k' = k then (k, v) :: rest else (k', v') :: insert rest k v

/-- Python `d.update(other)`: each binding of `other` overwrites `d`. -/
def updateWith (d other : Dict) : Dict :=
  other.foldl (fun acc kv => acc.insert kv.1 kv.2) d

end Dict

/-- One record file: top-level keys `memory_id`, `category`, `type`,
`content`, `metadata`, as written by `add_memory`. -/
structure Memory where
  memory_id : String
  category : String
  type : String
  content : Dict
  metadata : Dict
deriving Repr

/-- The on-disk store: one `Memory` per file under `memory/<category>/`,
in directory-iteration order. -/
abbrev Store := List Memory

/-! ## Operations of `LCTMemorySystem` (`scripts/agent_memory_integration.py`) -/

/-- Model of `_save_memory_file`: writes `memory/<category>/<memory_id>.json`,
silently overwriting a file at the same path; otherwise a new file appears. -/
def saveMemoryFile (store : Store) (m : Memory) : Store :=
  match store with
  | [] => [m]
  | x :: rest =>
      if x.category = m.category ∧ x.memory_id = m.memory_id
      then m :: rest
      else x :: saveMemoryFile rest m

/-- Model of `add_memory`: stamps `created_at`/`last_updated` = now and
`access_count` = 0 on top of the caller's content (`{**content, ...}`:
the stamps are written after the caller's keys, so they win on collision),
and the provenance defaults under the caller's metadata
(`{"agent": ..., ..., **(metadata or {})}`: caller's keys win).
Returns the new id and the store after `_save_memory_file`. -/
def mkMemory (category memory_type : String) (content metadata : Dict)
    (agent : String) (now : Int) : Memory :=
  { memory_id := category ++ "_" ++ memory_type ++ "_" ++ toString now
    category := category
    type := memory_type
    content := ((content.insert "created_at" (.vInt now)).insert
        "last_updated" (.vInt now)).insert "access_count" (.vInt 0)
    metadata := Dict.updateWith
        [("agent", .vStr agent), ("created_by", .vStr agent),
         ("last_updated_by", .vStr agent)] metadata }

/-- Model of `add_memory`, continued: the record actually persisted is
`mkMemory ...`; the call returns its id and writes its file. -/
def addMemory (store : Store) (category memory_type : String) (content : Dict)
    (metadata : Dict) (agent : String) (now : Int) : String × Store :=
  let m := mkMemory category memory_type content metadata agent now
  (m.memory_id, saveMemoryFile store m)

/-- Model of `_find_memory_file`: scan every category directory except the reserved
`agents` one for `<memory_id>.json`. -/
def findMemory (store : Store) (memory_id : String) : Option Memory :=
  store.find? (fun m => m.category != "agents" && m.memory_id == memory_id)

/-- The `updates` dict passed to `update_memory`.  The Python code reads only
the `"content"` and `"metadata"` keys of `updates`; every other key is
ignored, so the reachable behaviours are captured by the two optional
sub-dicts (`none` = key absent; `some []` = key present, empty dict). -/
structure Updates where
  content : Option Dict
  metadata : Option Dict

/-- Model of `update_memory`: find by id (false on not-found); merge
`updates["content"]` into `content` with `dict.update` and then set
`last_updated` = now; merge `updates["metadata"]` and then set
`last_updated_by` = agent; rewrite the file. -/
def updateMemory (store : Store) (memory_id : String) (updates : Updates)
    (agent : String) (now : Int) : Bool × Store :=
  match findMemory store memory_id with
  | none => (false, store)
  | some m =>
      let m₁ := match updates.content with
        | none => m
        | some c =>
            let c' := (m.content.updateWith c).insert "last_updated" (.vInt now)
            { m with content := c' }
      let m₂ := match updates.metadata with
        | none => m₁
        | some md =>
            let md' :=
              (m₁.metadata.updateWith md).insert "last_updated_by" (.vStr agent)
            { m₁ with metadata := md' }
      (true, saveMemoryFile store m₂)

/-- Reading `content.get("access_count", 0)` as used in arithmetic/comparison:
absent counts as 0; a non-integer value raises a `TypeError` in Python,
modelled as `none`. -/
def countOf : Option Value → Option Int
  | none => some 0
  | some (.vInt n) => some n
  | some _ => none

/-- Model of `increment_access`: find by id (false on not-found); set
`access_count` to its old value (default 0) plus one and `last_accessed`
to now; rewrite.  `none` models the `TypeError` on a non-integer stored
count. -/
def incrementAccess (store : Store) (memory_id : String) (now : Int) :
    Option (Bool × Store) :=
  match findMemory store memory_id with
  | none => some (false, store)
  | some m =>
      match countOf (m.content.get? "access_count") with
      | none => none
      | some n =>
          let c' := (m.content.insert "access_count" (.vInt (n + 1))).insert
            "last_accessed" (.vInt now)
          some (true, saveMemoryFile store { m with content := c' })

/-- Python truthiness of an optional string argument (`if category:` —
`None` and `""` are both falsy). -/
def strGiven : Option String → Bool
  | none => false
  | some s => !(s == "")

/-- Python truthiness of an optional list argument (`if tags:` — `None`
and `[]` are both falsy). -/
def tagsGiven : Option (List String) → Bool
  | none => false
  | some l => !l.isEmpty

/-- Reading `memory.get("content", {}).get("tags", [])` as a list of tags.
No code path of the repository stores a non-list under `"tags"`; such a
value would make Python's `tag in memory_tags` do substring matching (for
a string) or raise, and is outside the claims, so the model reads it as
the empty list. -/
def tagListOf (c : Dict) : List String :=
  match c.get? "tags" with
  | some (.vList l) => l
  | _ => []

/-- Negation of `memory.get("metadata", {}).get("agent") != agent`: a match
requires the stored agent value to be the string `a`; an absent or
non-string value compares unequal to a string in Python. -/
def agentMatches (md : Dict) (a : String) : Bool :=
  match md.get? "agent" with
  | some (.vStr s) => s == a
  | _ => false

/-- Model of `_matches_criteria`: category, type, agent exact matches when given,
and when a non-empty tag list is given, at least one requested tag must be
present in `content.tags` (OR semantics). -/
def matchesCriteria (m : Memory) (category memory_type : Option String)
    (tags : Option (List String)) (agent : Option String) : Bool :=
  if strGiven category && !(m.category == category.getD "") then false
  else if strGiven memory_type && !(m.type == memory_type.getD "") then false
  else if strGiven agent && !(agentMatches m.metadata (agent.getD "")) then
    false
  else if tagsGiven tags &&
      !((tags.getD []).any (fun t => (tagListOf m.content).contains t)) then
    false
  else true

/-- The sort key `x["content"]["created_at"]` of `get_memories`; `none`
models the `KeyError`/`TypeError` Python raises when the key is absent or
not a timestamp. -/
def sortKey? (m : Memory) : Option Int :=
  match m.content.get? "created_at" with
  | some (.vInt t) => some t
  | _ => none

/-- The sort key read as an integer; meaningful only when `sortKey?` is
`some` (which `getMemories` checks before sorting). -/
def memKey (m : Memory) : Int := (sortKey? m).getD 0

/-- Stable descending sort by `content.created_at`, modelling Python's
stable `memories.sort(key=lambda x: x["content"]["created_at"],
reverse=True)`: a record goes in front of the first one whose key is at
most its own, so earlier records with equal keys stay first. -/
def sortByCreatedDesc (l : List Memory) : List Memory :=
  List.insertionSort (fun a b => memKey b ≤ memKey a) l

/-- Whether a record's file sits in a scanned directory: the single named
category directory if a category is given (truthily), else every category
directory except the reserved `agents` one. -/
def inScan (category : Option String) (m : Memory) : Bool :=
  if strGiven category then m.category == category.getD ""
  else m.category != "agents"

/-- Model of `get_memories`: read every record file of the scanned directories;
keep the records passing `_matches_criteria`; sort by `content.created_at`
descending; return the first `limit`.  `none` models the exception Python
raises when a surviving record has no usable sort key. -/
def getMemories (store : Store) (category memory_type : Option String)
    (tags : Option (List String)) (agent : Option String) (limit : Nat) :
    Option (List Memory) :=
  let survivors := (store.filter (inScan category)).filter
    (fun m => matchesCriteria m category memory_type tags agent)
  if survivors.all (fun m => (sortKey? m).isSome)
  then some ((sortByCreatedDesc survivors).take limit)
  else none

/-! ## Maintenance sweeps (`scripts/cleanup_memories.py`)

The cleanup script re-reads each record file as raw JSON, so its functions
operate on top-level `Dict`s rather than on `Memory`. -/

/-- The Unix seconds of the fixed default `"2025-01-01T00:00:00"` used by
`cleanup_expired_memories` when a record has no top-level `created_at`. -/
def epochDefault : Int := 1735689600

/-- The 24-hour window (`timedelta(hours=24)`) in seconds. -/
def expiryWindow : Int := 86400

/-- Model of `datetime.fromisoformat(memory.get("created_at", "2025-01-01T00:00:00"))`:
the record's top-level `created_at` (NOT `content.created_at`), with the
epoch default when the key is absent; `none` models the `ValueError` /
`TypeError` raised on a value that is not a timestamp. -/
def createdAtOf (record : Dict) : Option Int :=
  match record.get? "created_at" with
  | none => some epochDefault
  | some (.vInt t) => some t
  | some _ => none

/-- The deletion test of `cleanup_expired_memories` for one `sessions`
file: delete iff `datetime.now() - created_at > timedelta(hours=24)`. -/
def expiredNow (record : Dict) (now : Int) : Option Bool :=
  (createdAtOf record).map (fun t => decide (now - t > expiryWindow))

/-- Model of `cleanup_expired_memories` over the files of `memory/sessions/`:
unlink every expired file, keep the rest.  `none` models the exception on
an unparseable `created_at` (which in Python aborts the sweep midway). -/
def cleanupExpired (sessions : List Dict) (now : Int) : Option (List Dict) :=
  if sessions.all (fun r => (expiredNow r now).isSome)
  then some (sessions.filter (fun r => !((expiredNow r now).getD false)))
  else none

/-- Reading `memory.get("content", {})`: absent defaults to the empty dict; a
non-dict value makes the subsequent `.get` calls raise, modelled `none`. -/
def contentOf (record : Dict) : Option Dict :=
  match record.get? "content" with
  | none => some []
  | some (.vDict d) => some d
  | some _ => none

/-- The test `content.get("priority", "medium") == "low"`: Python `==` against a
string is `False` for every non-string value. -/
def priorityIsLow (c : Dict) : Bool :=
  match c.getD "priority" (.vStr "medium") with
  | .vStr s => s == "low"
  | _ => false

/-- The deletion test of `cleanup_low_value_memories` for one file of a
swept category: delete iff `access_count < 2 and priority == "low"`, with
`access_count` defaulting to 0 and `priority` to `"medium"`. -/
def lowValueNow (record : Dict) : Option Bool :=
  (contentOf record).bind fun c =>
    (countOf (c.get? "access_count")).map fun n =>
      decide (n < 2) && priorityIsLow c

/-- Model of `cleanup_low_value_memories` over the files of one swept category
directory (`memory/development/` or `memory/sessions/`): unlink every
low-value file, keep the rest. -/
def cleanupLowValue (files : List Dict) : Option (List Dict) :=
  if files.all (fun r => (lowValueNow r).isSome)
  then some (files.filter (fun r => !((lowValueNow r).getD false)))
  else none

/-! ## Concrete fixtures used by counterexamples and witnesses -/

/-- A well-formed record as `add_memory` would persist it. -/
def exMem1 : Memory :=
  { memory_id := "id1"
    category := "sessions"
    type := "note"
    content := [("title", .vStr "a"), ("description", .vStr "da"),
      ("tags", .vList ["x", "y"]), ("priority", .vStr "high"),
      ("created_at", .vInt 100), ("last_updated", .vInt 100),
      ("access_count", .vInt 5)]
    metadata := [("agent", .vStr "system"), ("created_by", .vStr "system"),
      ("last_updated_by", .vStr "system")] }

/-- A second well-formed record, in another category. -/
def exMem2 : Memory :=
  { memory_id := "id2"
    category := "development"
    type := "decision"
    content := [("title", .vStr "b"), ("tags", .vList ["z"]),
      ("priority", .vStr "low"), ("created_at", .vInt 200),
      ("last_updated", .vInt 200), ("access_count", .vInt 0)]
    metadata := [("agent", .vStr "bob"), ("created_by", .vStr "bob"),
      ("last_updated_by", .vStr "bob")] }

/-- A two-record store. -/
def exStore : Store := [exMem1, exMem2]

/-- Low-value boundary fixture: `access_count = 1, priority = "low"`. -/
def lowA : Dict :=
  [("content", .vDict [("access_count", .vInt 1), ("priority", .vStr "low")])]

/-- Low-value boundary fixture: `access_count = 2, priority = "low"`. -/
def lowB : Dict :=
  [("content", .vDict [("access_count", .vInt 2), ("priority", .vStr "low")])]

/-- Low-value boundary fixture: `access_count` absent (0), `priority = "high"`. -/
def lowC : Dict := [("content", .vDict [("priority", .vStr "high")])]

/-- Ordering fixture, created at time 10. -/
def ordA : Memory :=
  { memory_id := "o1", category := "sessions", type := "note"
    content := [("tags", .vList ["w"]), ("created_at", .vInt 10)]
    metadata := [] }

/-- Ordering fixture, created at time 20. -/
def ordB : Memory :=
  { memory_id := "o2", category := "sessions", type := "note"
    content := [("tags", .vList ["w"]), ("created_at", .vInt 20)]
    metadata := [] }

/-- Ordering fixture, created at time 30. -/
def ordC : Memory :=
  { memory_id := "o3", category := "development", type := "note"
    content := [("tags", .vList ["w"]), ("created_at", .vInt 30)]
    metadata := [] }

/-! ## Dictionary lemmas -/

theorem Dict.get_insert_self (d : Dict) (k : String) (v : Value) :
    Dict.get? (Dict.insert d k v) k = some v := by
  induction d with
  | nil => simp [Dict.insert, Dict.get?]
  | cons kv rest ih =>
      obtain ⟨k₁, v₁⟩ := kv
      by_cases h : k₁ = k
      · simp [Dict.insert, Dict.get?, h]
      · simp [Dict.insert, Dict.get?, h, ih]

theorem Dict.get_insert_of_ne (d : Dict) (k k' : String) (v : Value)
    (h : k' ≠ k) : Dict.get? (Dict.insert d k v) k' = Dict.get? d k' := by
  have h' : ¬(k = k') := fun hh => h hh.symm
  induction d with
  | nil => simp [Dict.insert, Dict.get?, h']
  | cons kv rest ih =>
      obtain ⟨k₁, v₁⟩ := kv
      by_cases h₁ : k₁ = k
      · subst h₁
        simp [Dict.insert, Dict.get?, h']
      · by_cases h₂ : k₁ = k'
        · simp [Dict.insert, Dict.get?, h₁, h₂, h]
        · simp [Dict.insert, Dict.get?, h₁, h₂, ih]

theorem Dict.get_eq_none_of_not_mem (d : Dict) (k : String)
    (h : k ∉ d.map Prod.fst) : Dict.get? d k = none := by
  induction d with
  | nil => rfl
  | cons kv rest ih =>
      obtain ⟨k₁, v₁⟩ := kv
      simp only [List.map_cons, List.mem_cons] at h
      push_neg at h
      have h₁ : ¬(k₁ = k) := fun hh => h.1 hh.symm
      simp [Dict.get?, h₁, ih h.2]

theorem Dict.get_updateWith_of_not_mem (d c : Dict) (k : String)
    (h : Dict.get? c k = none) :
    Dict.get? (Dict.updateWith d c) k = Dict.get? d k := by
  induction c generalizing d with
  | nil => rfl
  | cons kv rest ih =>
      obtain ⟨k₁, v₁⟩ := kv
      have hk₁ : ¬(k₁ = k) := by
        intro hh
        simp [Dict.get?, hh] at h
      have hrest : Dict.get? rest k = none := by
        simpa [Dict.get?, hk₁] using h
      calc Dict.get? (Dict.updateWith d ((k₁, v₁) :: rest)) k
          = Dict.get? (Dict.updateWith (Dict.insert d k₁ v₁) rest) k := rfl
        _ = Dict.get? (Dict.insert d k₁ v₁) k := ih _ hrest
        _ = Dict.get? d k :=
            Dict.get_insert_of_ne _ _ _ _ (fun hh => hk₁ hh.symm)

theorem Dict.get_updateWith_of_mem (d c : Dict) (k : String) (v : Value)
    (hnd : (c.map Prod.fst).Nodup) (h : Dict.get? c k = some v) :
    Dict.get? (Dict.updateWith d c) k = some v := by
  induction c generalizing d with
  | nil => simp [Dict.get?] at h
  | cons kv rest ih =>
      obtain ⟨k₁, v₁⟩ := kv
      simp only [List.map_cons, List.nodup_cons] at hnd
      by_cases hk : k₁ = k
      · subst hk
        have hv : v₁ = v := by simpa [Dict.get?] using h
        subst hv
        have hrest : Dict.get? rest k₁ = none :=
          Dict.get_eq_none_of_not_mem _ _ hnd.1
        calc Dict.get? (Dict.updateWith d ((k₁, v₁) :: rest)) k₁
            = Dict.get? (Dict.updateWith (Dict.insert d k₁ v₁) rest) k₁ := rfl
          _ = Dict.get? (Dict.insert d k₁ v₁) k₁ :=
              Dict.get_updateWith_of_not_mem _ _ _ hrest
          _ = some v₁ := Dict.get_insert_self _ _ _
      · have hrest : Dict.get? rest k = some v := by
          simpa [Dict.get?, hk] using h
        exact ih (Dict.insert d k₁ v₁) hnd.2 hrest

/-! ## Store lemmas -/

theorem mem_saveMemoryFile_self (store : Store) (m : Memory) :
    m ∈ saveMemoryFile store m := by
  induction store with
  | nil => simp [saveMemoryFile]
  | cons x rest ih =>
      by_cases h : x.category = m.category ∧ x.memory_id = m.memory_id
      · simp [saveMemoryFile, h]
      · simp only [saveMemoryFile, if_neg h]
        exact List.mem_cons_of_mem _ ih

theorem mem_of_mem_saveMemoryFile {store : Store} {m x : Memory}
    (hx : x ∈ saveMemoryFile store m) : x = m ∨ x ∈ store := by
  induction store with
  | nil => simpa [saveMemoryFile] using hx
  | cons y rest ih =>
      by_cases h : y.category = m.category ∧ y.memory_id = m.memory_id
      · simp only [saveMemoryFile, if_pos h, List.mem_cons] at hx
        rcases hx with hx | hx
        · exact Or.inl hx
        · exact Or.inr (List.mem_cons_of_mem _ hx)
      · simp only [saveMemoryFile, if_neg h, List.mem_cons] at hx
        rcases hx with hx | hx
        · exact Or.inr (hx ▸ List.mem_cons_self _ _)
        · rcases ih hx with hx | hx
          · exact Or.inl hx
          · exact Or.inr (List.mem_cons_of_mem _ hx)

theorem length_saveMemoryFile (store : Store) (m : Memory) :
    (saveMemoryFile store m).length ≤ store.length + 1 := by
  induction store with
  | nil => simp [saveMemoryFile]
  | cons x rest ih =>
      by_cases h : x.category = m.category ∧ x.memory_id = m.memory_id
      · simp only [saveMemoryFile, if_pos h, List.length_cons]
        omega
      · simp only [saveMemoryFile, if_neg h, List.length_cons]
        omega

theorem findMemory_eq_none {store : Store} {memory_id : String}
    (h : ∀ m ∈ store, m.memory_id ≠ memory_id) :
    findMemory store memory_id = none := by
  unfold findMemory
  rw [List.find?_eq_none]
  intro m hm
  simp [h m hm]

theorem findMemory_saveMemoryFile {store : Store} {memory_id : String}
    {m m' : Memory} (hf : findMemory store memory_id = some m)
    (hcat : m'.category = m.category) (hid : m'.memory_id = m.memory_id) :
    findMemory (saveMemoryFile store m') memory_id = some m' := by
  have hp : (m.category != "agents" && m.memory_id == memory_id) = true := by
    exact List.find?_some (p := fun x : Memory =>
      x.category != "agents" && x.memory_id == memory_id) hf
  simp only [Bool.and_eq_true, bne_iff_ne, beq_iff_eq] at hp
  induction store with
  | nil => simp [findMemory] at hf
  | cons x rest ih =>
      by_cases hx : (x.category != "agents" && x.memory_id == memory_id) = true
      · have hxm : x = m := by
          have h₁ : some x = some m := by
            simpa [findMemory, List.find?, hx] using hf
          exact Option.some.inj h₁
        have hcond : x.category = m'.category ∧ x.memory_id = m'.memory_id :=
          ⟨hxm ▸ hcat.symm, hxm ▸ hid.symm⟩
        simp only [saveMemoryFile, if_pos hcond]
        have hp' : (m'.category != "agents" && m'.memory_id == memory_id) =
            true := by
          simp only [Bool.and_eq_true, bne_iff_ne, beq_iff_eq]
          exact ⟨hcat ▸ hp.1, hid ▸ hp.2⟩
        simp [findMemory, List.find?, hp']
      · have hf' : findMemory rest memory_id = some m := by
          simpa [findMemory, List.find?, hx] using hf
        have hcond : ¬(x.category = m'.category ∧ x.memory_id = m'.memory_id) := by
          rintro ⟨h₁, h₂⟩
          apply hx
          simp only [Bool.and_eq_true, bne_iff_ne, beq_iff_eq]
          constructor
          · rw [h₁, hcat]
            exact hp.1
          · rw [h₂, hid]
            exact hp.2
        simp only [saveMemoryFile, if_neg hcond]
        have hrec := ih hf'
        simpa [findMemory, List.find?, hx] using hrec

/-! ## Sorting lemmas -/

theorem perm_sortByCreatedDesc (l : List Memory) :
    (sortByCreatedDesc l).Perm l :=
  List.perm_insertionSort _ l

theorem sorted_sortByCreatedDesc (l : List Memory) :
    (sortByCreatedDesc l).Sorted (fun a b => memKey b ≤ memKey a) := by
  haveI : IsTotal Memory (fun a b => memKey b ≤ memKey a) :=
    ⟨fun a b => le_total (memKey b) (memKey a)⟩
  haveI : IsTrans Memory (fun a b => memKey b ≤ memKey a) :=
    ⟨fun a b c hab hbc => le_trans hbc hab⟩
  exact List.sorted_insertionSort _ l

/-! ## Claim C9: not-found behaviour of update and increment-access -/

/-- C9: for every id that matches no stored record file, `update_memory`
and `increment_access` each return `false`, raise no exception (the
increment result is `some`, never the crash value `none`), and leave every
stored record unchanged (the returned store is the input store). -/
theorem notFound_returns_false_and_leaves_store (store : Store)
    (memory_id agent : String) (u : Updates) (now : Int)
    (h : ∀ m ∈ store, m.memory_id ≠ memory_id) :
    updateMemory store memory_id u agent now = (false, store) ∧
    incrementAccess store memory_id now = some (false, store) := by
  have hf := findMemory_eq_none h
  constructor
  · simp [updateMemory, hf]
  · simp [incrementAccess, hf]

/-- Witness for C9 at a concrete store and unknown id. -/
theorem notFound_returns_false_and_leaves_store_witness :
    updateMemory exStore "missing" ⟨none, none⟩ "system" 7 = (false, exStore) ∧
    incrementAccess exStore "missing" 7 = some (false, exStore) :=
  notFound_returns_false_and_leaves_store exStore "missing" "system"
    ⟨none, none⟩ 7 (by
      intro m hm
      simp only [exStore, List.mem_cons, List.mem_singleton] at hm
      rcases hm with rfl | rfl | h
      · simp [exMem1]
      · simp [exMem2]
      · simp at h)

/-! ## Claim C10: system stamps win in content, caller wins in metadata -/

/-- C10: whatever the caller-supplied content contains, the persisted
record's `content.created_at` and `content.last_updated` are the current
time and `content.access_count` is 0 (system stamps win on key collision);
the persisted record is the one `mkMemory` builds, and it is in the store
`add_memory` returns.  By contrast, every caller-supplied metadata binding
survives verbatim (caller wins over the provenance defaults). -/
theorem create_system_stamps_win_in_content (store : Store)
    (category memory_type : String) (content metadata : Dict)
    (agent : String) (now : Int) :
    (Dict.get? (mkMemory category memory_type content metadata agent
        now).content "created_at" = some (.vInt now)) ∧
    (Dict.get? (mkMemory category memory_type content metadata agent
        now).content "last_updated" = some (.vInt now)) ∧
    (Dict.get? (mkMemory category memory_type content metadata agent
        now).content "access_count" = some (.vInt 0)) ∧
    (mkMemory category memory_type content metadata agent now ∈
      (addMemory store category memory_type content metadata agent now).2) ∧
    (∀ k v, (metadata.map Prod.fst).Nodup → Dict.get? metadata k = some v →
      Dict.get? (mkMemory category memory_type content metadata agent
        now).metadata k = some v) := by
  refine ⟨?_, ?_, ?_, ?_, ?_⟩
  · show Dict.get? (Dict.insert (Dict.insert (Dict.insert content
      "created_at" (.vInt now)) "last_updated" (.vInt now)) "access_count"
      (.vInt 0)) "created_at" = some (.vInt now)
    rw [Dict.get_insert_of_ne _ _ _ _ (by simp),
      Dict.get_insert_of_ne _ _ _ _ (by simp), Dict.get_insert_self]
  · show Dict.get? (Dict.insert (Dict.insert (Dict.insert content
      "created_at" (.vInt now)) "last_updated" (.vInt now)) "access_count"
      (.vInt 0)) "last_updated" = some (.vInt now)
    rw [Dict.get_insert_of_ne _ _ _ _ (by simp), Dict.get_insert_self]
  · exact Dict.get_insert_self _ _ _
  · exact mem_saveMemoryFile_self _ _
  · intro k v hnd hv
    exact Dict.get_updateWith_of_mem _ _ _ _ hnd hv

/-- Witness for C10: caller content carrying its own `created_at`,
`last_updated` and `access_count` is overridden by the stamps, while the
caller metadata binding for `agent` survives. -/
theorem create_system_stamps_win_in_content_witness :
    (Dict.get? (mkMemory "sessions" "note"
        [("created_at", .vInt 1), ("access_count", .vInt 9)]
        [("agent", .vStr "me")] "system" 400).content "created_at" =
      some (.vInt 400)) ∧
    (Dict.get? (mkMemory "sessions" "note"
        [("created_at", .vInt 1), ("access_count", .vInt 9)]
        [("agent", .vStr "me")] "system" 400).metadata "agent" =
      some (.vStr "me")) := by
  have h := create_system_stamps_win_in_content exStore "sessions" "note"
    [("created_at", .vInt 1), ("access_count", .vInt 9)]
    [("agent", .vStr "me")] "system" 400
  exact ⟨h.1, h.2.2.2.2 "agent" (.vStr "me") (by simp) (by rfl)⟩

/-! ## Claim C1: expiry sweep boundary -/

/-- C1: for every record file in the sessions category, the expiry sweep
deletes the file exactly when the elapsed time from the record's
`created_at` to now exceeds 24 hours, defaulting `created_at` to the fixed
epoch constant only when it is absent from the record (the sweep reads the
top-level `created_at` of the raw JSON document).  In particular a record
with `created_at` = now − 23h59m (elapsed 86340 s ≤ 86400 s) is retained
and one with `created_at` = now − 24h01m (elapsed 86460 s) is deleted. -/
theorem expiry_sweep_deletes_iff_elapsed_exceeds_24h
    (sessions : List Dict) (now : Int) (out : List Dict) (r : Dict) (t : Int)
    (hclean : cleanupExpired sessions now = some out) (hr : r ∈ sessions)
    (ht : Dict.get? r "created_at" = some (.vInt t) ∨
      (Dict.get? r "created_at" = none ∧ t = epochDefault)) :
    (r ∈ out ↔ ¬(now - t > expiryWindow)) := by
  have hca : createdAtOf r = some t := by
    rcases ht with h | ⟨h, rfl⟩
    · simp [createdAtOf, h]
    · simp [createdAtOf, h]
  have hexp : expiredNow r now = some (decide (now - t > expiryWindow)) := by
    simp [expiredNow, hca]
  unfold cleanupExpired at hclean
  by_cases hall : sessions.all (fun x => (expiredNow x now).isSome) = true
  · rw [if_pos hall, Option.some.injEq] at hclean
    subst hclean
    rw [List.mem_filter]
    simp [hr, hexp]
  · rw [if_neg hall] at hclean
    cases hclean

/-- Witness for C1 at the boundary: with `now` = 1000000, a sessions
record created 86340 s ago is retained and one created 86460 s ago is
deleted; the sweep keeps exactly the first. -/
theorem expiry_sweep_deletes_iff_elapsed_exceeds_24h_witness :
    (([("created_at", Value.vInt 913660)] : Dict) ∈
        [([("created_at", Value.vInt 913660)] : Dict)] ↔
      ¬((1000000 : Int) - 913660 > expiryWindow)) ∧
    (([("created_at", Value.vInt 913540)] : Dict) ∈
        [([("created_at", Value.vInt 913660)] : Dict)] ↔
      ¬((1000000 : Int) - 913540 > expiryWindow)) := by
  constructor
  · exact expiry_sweep_deletes_iff_elapsed_exceeds_24h
      [[("created_at", Value.vInt 913660)], [("created_at", Value.vInt 913540)]]
      1000000 [[("created_at", Value.vInt 913660)]]
      [("created_at", Value.vInt 913660)] 913660 (by rfl) (by simp)
      (Or.inl (by rfl))
  · exact expiry_sweep_deletes_iff_elapsed_exceeds_24h
      [[("created_at", Value.vInt 913660)], [("created_at", Value.vInt 913540)]]
      1000000 [[("created_at", Value.vInt 913660)]]
      [("created_at", Value.vInt 913540)] 913540 (by rfl) (by simp)
      (Or.inl (by rfl))

/-! ## Claim C7: low-value sweep boundary -/

/-- C7: for every record in a category swept by the low-value sweep
(`development` and `sessions`), the record's file is deleted iff
`content.access_count < 2` and `content.priority == "low"`, with
`access_count` defaulting to 0 and `priority` to `"medium"` when absent.
In particular `access_count = 1, priority = "low"` is deleted,
`access_count = 2, priority = "low"` is retained, and
`access_count = 0, priority = "high"` is retained. -/
theorem low_value_sweep_deletes_iff_low_and_rarely_accessed
    (files out : List Dict) (r c : Dict) (n : Int) (p : String)
    (hclean : cleanupLowValue files = some out) (hr : r ∈ files)
    (hc : contentOf r = some c)
    (hn : countOf (Dict.get? c "access_count") = some n)
    (hp : Dict.getD c "priority" (.vStr "medium") = .vStr p) :
    (r ∈ out ↔ ¬(n < 2 ∧ p = "low")) := by
  have hlv : lowValueNow r = some (decide (n < 2) && (p == "low")) := by
    simp [lowValueNow, hc, hn, priorityIsLow, hp]
  unfold cleanupLowValue at hclean
  by_cases hall : files.all (fun x => (lowValueNow x).isSome) = true
  · rw [if_pos hall, Option.some.injEq] at hclean
    subst hclean
    rw [List.mem_filter]
    simp only [hr, hlv, true_and, Option.getD_some]
    simp only [Bool.not_eq_true', Bool.and_eq_false_iff,
      decide_eq_false_iff_not, not_lt, beq_eq_false_iff_ne, ne_eq, not_and]
    constructor
    · rintro (h | h) h2
      · exact absurd h2 (by omega)
      · exact h
    · intro h
      rcases lt_or_ge n 2 with h2 | h2
      · exact Or.inr (h h2)
      · exact Or.inl h2
  · rw [if_neg hall] at hclean
    cases hclean

/-- Witness for C7 at the three boundary records: the sweep keeps exactly
the second and third. -/
theorem low_value_sweep_deletes_iff_low_and_rarely_accessed_witness :
    (lowA ∈ [lowB, lowC] ↔ ¬((1 : Int) < 2 ∧ "low" = "low")) ∧
    (lowB ∈ [lowB, lowC] ↔ ¬((2 : Int) < 2 ∧ "low" = "low")) ∧
    (lowC ∈ [lowB, lowC] ↔ ¬((0 : Int) < 2 ∧ "high" = "low")) := by
  refine ⟨?_, ?_, ?_⟩
  · exact low_value_sweep_deletes_iff_low_and_rarely_accessed
      [lowA, lowB, lowC] [lowB, lowC] lowA
      [("access_count", .vInt 1), ("priority", .vStr "low")] 1 "low"
      (by rfl) (List.mem_cons_self _ _) (by rfl) (by rfl) (by rfl)
  · exact low_value_sweep_deletes_iff_low_and_rarely_accessed
      [lowA, lowB, lowC] [lowB, lowC] lowB
      [("access_count", .vInt 2), ("priority", .vStr "low")] 2 "low"
      (by rfl) (List.mem_cons_of_mem _ (List.mem_cons_self _ _)) (by rfl)
      (by rfl) (by rfl)
  · exact low_value_sweep_deletes_iff_low_and_rarely_accessed
      [lowA, lowB, lowC] [lowB, lowC] lowC
      [("priority", .vStr "high")] 0 "high"
      (by rfl)
      (List.mem_cons_of_mem _ (List.mem_cons_of_mem _ (List.mem_cons_self _ _)))
      (by rfl) (by rfl) (by rfl)

/-! ## Update-merge lemmas shared by several claims -/

/-- A successful `update_memory` call whose `updates["content"]` does not
bind the key `k` (and `k` is not the stamped `last_updated`) leaves the
value of `content[k]` of the record located by the id unchanged. -/
theorem update_preserves_content_key (store : Store)
    (memory_id agent : String) (u : Updates) (now : Int) (k : String)
    (hk : k ≠ "last_updated")
    (hu : ∀ c, u.content = some c → Dict.get? c k = none) :
    (findMemory (updateMemory store memory_id u agent now).2 memory_id).map
        (fun x => Dict.get? x.content k)
      = (findMemory store memory_id).map
        (fun x => Dict.get? x.content k) := by
  obtain ⟨uc, umd⟩ := u
  cases hf : findMemory store memory_id with
  | none => simp [updateMemory, hf]
  | some m =>
      cases uc with
      | none =>
          cases umd with
          | none =>
              have hred : (updateMemory store memory_id ⟨none, none⟩ agent now).2 = saveMemoryFile store m := by
                simp [updateMemory, hf]
              have hfs := @findMemory_saveMemoryFile store memory_id m m hf rfl rfl
              simp [hred, hfs, hf]
          | some md =>
              have hred : (updateMemory store memory_id ⟨none, some md⟩ agent now).2 = saveMemoryFile store { m with metadata := Dict.insert (Dict.updateWith m.metadata md) "last_updated_by" (.vStr agent) } := by
                simp [updateMemory, hf]
              have hfs := @findMemory_saveMemoryFile store memory_id m { m with metadata := Dict.insert (Dict.updateWith m.metadata md) "last_updated_by" (.vStr agent) } hf rfl rfl
              simp [hred, hfs, hf]
      | some c =>
          have hcnone : Dict.get? c k = none := hu c rfl
          have hget : Dict.get? (Dict.insert (Dict.updateWith m.content c)
              "last_updated" (.vInt now)) k = Dict.get? m.content k := by
            rw [Dict.get_insert_of_ne _ _ _ _ hk,
              Dict.get_updateWith_of_not_mem _ _ _ hcnone]
          cases umd with
          | none =>
              have hred : (updateMemory store memory_id ⟨some c, none⟩ agent now).2 = saveMemoryFile store { m with content := Dict.insert (Dict.updateWith m.content c) "last_updated" (.vInt now) } := by
                simp [updateMemory, hf]
              have hfs := @findMemory_saveMemoryFile store memory_id m { m with content := Dict.insert (Dict.updateWith m.content c) "last_updated" (.vInt now) } hf rfl rfl
              simp [hred, hfs, hf, hget]
          | some md =>
              have hred : (updateMemory store memory_id ⟨some c, some md⟩ agent now).2 = saveMemoryFile store { m with content := Dict.insert (Dict.updateWith m.content c) "last_updated" (.vInt now), metadata := Dict.insert (Dict.updateWith m.metadata md) "last_updated_by" (.vStr agent) } := by
                simp [updateMemory, hf]
              have hfs := @findMemory_saveMemoryFile store memory_id m { m with content := Dict.insert (Dict.updateWith m.content c) "last_updated" (.vInt now), metadata := Dict.insert (Dict.updateWith m.metadata md) "last_updated_by" (.vStr agent) } hf rfl rfl
              simp [hred, hfs, hf, hget]

/-! ## Claim C2: `content.created_at` under update -/

/-- C2 counterexample: the claim fails on the code.  On a concrete store,
`update_memory` with `updates.content` containing a `created_at` key
succeeds and rewrites `content.created_at` from 100 to 999, so the value
after the update differs from the value before. -/
theorem update_overwrites_created_at_counterexample :
    ((updateMemory exStore "id1" ⟨some [("created_at", Value.vInt 999)],
        none⟩ "system" 300).1 = true) ∧
    ((findMemory exStore "id1").map
        (fun m => Dict.get? m.content "created_at")
      = some (some (.vInt 100))) ∧
    ((findMemory (updateMemory exStore "id1"
          ⟨some [("created_at", Value.vInt 999)], none⟩ "system" 300).2
        "id1").map (fun m => Dict.get? m.content "created_at")
      ≠ (findMemory exStore "id1").map
        (fun m => Dict.get? m.content "created_at")) := by
  refine ⟨rfl, rfl, ?_⟩
  show some (some (Value.vInt 999)) ≠ some (some (Value.vInt 100))
  intro h
  injection h with h1
  injection h1 with h2
  injection h2 with h3
  omega

/-- C2 amended: `content.created_at` is set at creation and is preserved
by every successful update whose `updates.content` does not itself contain
a `created_at` key; an update whose content mapping contains `created_at`
overwrites it like any other content key. -/
theorem update_preserves_created_at_unless_supplied (store : Store)
    (memory_id agent : String) (u : Updates) (now : Int)
    (hu : ∀ c, u.content = some c → Dict.get? c "created_at" = none) :
    (findMemory (updateMemory store memory_id u agent now).2 memory_id).map
        (fun x => Dict.get? x.content "created_at")
      = (findMemory store memory_id).map
        (fun x => Dict.get? x.content "created_at") :=
  update_preserves_content_key store memory_id agent u now "created_at"
    (by simp) hu

/-- Witness for amended C2: a concrete update that only changes
`priority` leaves `created_at` where it was. -/
theorem update_preserves_created_at_unless_supplied_witness :
    (findMemory (updateMemory exStore "id1"
          ⟨some [("priority", Value.vStr "low")], none⟩ "system" 300).2
        "id1").map (fun x => Dict.get? x.content "created_at")
      = (findMemory exStore "id1").map
        (fun x => Dict.get? x.content "created_at") :=
  update_preserves_created_at_unless_supplied exStore "id1" "system"
    ⟨some [("priority", Value.vStr "low")], none⟩ 300
    (by intro c hc; injection hc with h; subst h; rfl)

/-! ## Claim C3: `content.access_count` under the operations -/

/-- C3 counterexample: the claim fails on the code.  On a concrete store,
`update_memory` with `updates.content` containing an `access_count` key
succeeds and rewrites `content.access_count` from 5 down to 0 — an
operation other than `increment_access` changed it, and decreased it. -/
theorem update_overwrites_access_count_counterexample :
    ((updateMemory exStore "id1" ⟨some [("access_count", Value.vInt 0)],
        none⟩ "system" 300).1 = true) ∧
    ((findMemory exStore "id1").map
        (fun m => Dict.get? m.content "access_count")
      = some (some (.vInt 5))) ∧
    ((findMemory (updateMemory exStore "id1"
          ⟨some [("access_count", Value.vInt 0)], none⟩ "system" 300).2
        "id1").map (fun m => Dict.get? m.content "access_count")
      = some (some (.vInt 0))) ∧
    ((0 : Int) < 5) := by
  exact ⟨rfl, rfl, rfl, by omega⟩

/-- C3 amended: `content.access_count` is changed by exactly two paths:
`increment_access` raises it by exactly 1 per successful call (and reports
`true`), and an update whose `updates.content` explicitly binds
`access_count` overwrites it (and may decrease it, see the
counterexample); an update whose content mapping does not bind
`access_count` leaves it unchanged, and retrieval performs no writes. -/
theorem access_count_changed_only_by_increment_or_explicit_update :
    (∀ (store : Store) (memory_id : String) (now : Int) (m : Memory)
        (n : Int) (b : Bool) (post : Store),
      findMemory store memory_id = some m →
      countOf (Dict.get? m.content "access_count") = some n →
      incrementAccess store memory_id now = some (b, post) →
      b = true ∧ (findMemory post memory_id).map
          (fun x => Dict.get? x.content "access_count")
        = some (some (.vInt (n + 1)))) ∧
    (∀ (store : Store) (memory_id agent : String) (u : Updates) (now : Int),
      (∀ c, u.content = some c → Dict.get? c "access_count" = none) →
      (findMemory (updateMemory store memory_id u agent now).2
          memory_id).map (fun x => Dict.get? x.content "access_count")
        = (findMemory store memory_id).map
          (fun x => Dict.get? x.content "access_count")) := by
  constructor
  · intro store memory_id now m n b post hf hcount hinc
    have hred : incrementAccess store memory_id now = some (true, saveMemoryFile store { m with content := Dict.insert (Dict.insert m.content "access_count" (.vInt (n + 1))) "last_accessed" (.vInt now) }) := by
      simp [incrementAccess, hf, hcount]
    rw [hred] at hinc
    injection hinc with hpair
    have hb : b = true := (congrArg Prod.fst hpair).symm
    have hpost : post = saveMemoryFile store { m with content := Dict.insert (Dict.insert m.content "access_count" (.vInt (n + 1))) "last_accessed" (.vInt now) } :=
      (congrArg Prod.snd hpair).symm
    subst hpost
    refine ⟨hb, ?_⟩
    have hfs := @findMemory_saveMemoryFile store memory_id m { m with content := Dict.insert (Dict.insert m.content "access_count" (.vInt (n + 1))) "last_accessed" (.vInt now) } hf rfl rfl
    rw [hfs]
    simp only [Option.map_some']
    congr 1
    rw [Dict.get_insert_of_ne _ _ _ _ (by simp), Dict.get_insert_self]
  · intro store memory_id agent u now hu
    exact update_preserves_content_key store memory_id agent u now
      "access_count" (by simp) hu

/-- Witness for amended C3: on a concrete store, one `increment_access`
call takes `access_count` from 5 to 6, and an update that only changes
`priority` leaves it at 5. -/
theorem access_count_changed_only_by_increment_witness :
    (true = true ∧ (findMemory (saveMemoryFile exStore { exMem1 with content := Dict.insert (Dict.insert exMem1.content "access_count" (.vInt 6)) "last_accessed" (.vInt 900) }) "id1").map
        (fun x => Dict.get? x.content "access_count")
      = some (some (.vInt 6))) ∧
    ((findMemory (updateMemory exStore "id1"
          ⟨some [("priority", Value.vStr "low")], none⟩ "system" 300).2
        "id1").map (fun x => Dict.get? x.content "access_count")
      = (findMemory exStore "id1").map
        (fun x => Dict.get? x.content "access_count")) := by
  constructor
  · exact access_count_changed_only_by_increment_or_explicit_update.1
      exStore "id1" 900 exMem1 5 true _ (by rfl) (by rfl) (by rfl)
  · exact access_count_changed_only_by_increment_or_explicit_update.2
      exStore "id1" "system" ⟨some [("priority", Value.vStr "low")], none⟩
      300 (by intro c hc; injection hc with h; subst h; rfl)

/-! ## Claim C4: shallow-merge semantics of update -/

/-- C4: for an existing record and `update(id, {content: c}, agent)`, each
key of `c` overwrites the corresponding content key, every content key
absent from `c` keeps its previous value verbatim, `content.last_updated`
is set to the current time (after the merge, so it wins even when `c`
itself binds it), and the metadata is untouched.  The spec's example —
updating with content `{priority: "low"}` changes only `priority` and
`last_updated` — is the instance in the witness below. -/
theorem update_merge_overwrites_given_keys_and_preserves_rest
    (store : Store) (memory_id agent : String) (c : Dict) (now : Int)
    (m : Memory) (hf : findMemory store memory_id = some m)
    (hnd : (c.map Prod.fst).Nodup) :
    ((updateMemory store memory_id ⟨some c, none⟩ agent now).1 = true) ∧
    ((findMemory (updateMemory store memory_id ⟨some c, none⟩ agent now).2
        memory_id).map (fun x => x.metadata) = some m.metadata) ∧
    (∀ k : String,
      (k = "last_updated" →
        (findMemory (updateMemory store memory_id ⟨some c, none⟩ agent
            now).2 memory_id).map (fun x => Dict.get? x.content k)
          = some (some (.vInt now))) ∧
      (k ≠ "last_updated" → ∀ v, Dict.get? c k = some v →
        (findMemory (updateMemory store memory_id ⟨some c, none⟩ agent
            now).2 memory_id).map (fun x => Dict.get? x.content k)
          = some (some v)) ∧
      (k ≠ "last_updated" → Dict.get? c k = none →
        (findMemory (updateMemory store memory_id ⟨some c, none⟩ agent
            now).2 memory_id).map (fun x => Dict.get? x.content k)
          = some (Dict.get? m.content k))) := by
  have hred : (updateMemory store memory_id ⟨some c, none⟩ agent now).2 = saveMemoryFile store { m with content := Dict.insert (Dict.updateWith m.content c) "last_updated" (.vInt now) } := by
    simp [updateMemory, hf]
  have hfs := @findMemory_saveMemoryFile store memory_id m { m with content := Dict.insert (Dict.updateWith m.content c) "last_updated" (.vInt now) } hf rfl rfl
  refine ⟨by simp [updateMemory, hf], ?_, ?_⟩
  · rw [hred, hfs]
    rfl
  · intro k
    refine ⟨?_, ?_, ?_⟩
    · rintro rfl
      rw [hred, hfs]
      simp only [Option.map_some']
      rw [Dict.get_insert_self]
    · intro hk v hv
      rw [hred, hfs]
      simp only [Option.map_some']
      rw [Dict.get_insert_of_ne _ _ _ _ hk,
        Dict.get_updateWith_of_mem _ _ _ _ hnd hv]
    · intro hk hv
      rw [hred, hfs]
      simp only [Option.map_some']
      rw [Dict.get_insert_of_ne _ _ _ _ hk,
        Dict.get_updateWith_of_not_mem _ _ _ hv]

/-- Witness for C4, the spec's own example: updating `exMem1` (priority
"high") with content `{priority: "low"}` at time 300 flips `priority`,
stamps `last_updated` = 300, and leaves `title`, `tags` and the metadata
untouched. -/
theorem update_merge_overwrites_given_keys_witness :
    ((updateMemory exStore "id1" ⟨some [("priority", Value.vStr "low")],
        none⟩ "system" 300).1 = true) ∧
    ((findMemory (updateMemory exStore "id1"
          ⟨some [("priority", Value.vStr "low")], none⟩ "system" 300).2
        "id1").map (fun x => x.metadata) = some exMem1.metadata) ∧
    ((findMemory (updateMemory exStore "id1"
          ⟨some [("priority", Value.vStr "low")], none⟩ "system" 300).2
        "id1").map (fun x => Dict.get? x.content "last_updated")
      = some (some (.vInt 300))) ∧
    ((findMemory (updateMemory exStore "id1"
          ⟨some [("priority", Value.vStr "low")], none⟩ "system" 300).2
        "id1").map (fun x => Dict.get? x.content "priority")
      = some (some (.vStr "low"))) ∧
    ((findMemory (updateMemory exStore "id1"
          ⟨some [("priority", Value.vStr "low")], none⟩ "system" 300).2
        "id1").map (fun x => Dict.get? x.content "title")
      = some (Dict.get? exMem1.content "title")) ∧
    ((findMemory (updateMemory exStore "id1"
          ⟨some [("priority", Value.vStr "low")], none⟩ "system" 300).2
        "id1").map (fun x => Dict.get? x.content "tags")
      = some (Dict.get? exMem1.content "tags")) := by
  have h := update_merge_overwrites_given_keys_and_preserves_rest exStore
    "id1" "system" [("priority", Value.vStr "low")] 300 exMem1 (by rfl)
    (by simp)
  refine ⟨h.1, h.2.1, ?_, ?_, ?_, ?_⟩
  · exact (h.2.2 "last_updated").1 rfl
  · exact (h.2.2 "priority").2.1 (by simp) (Value.vStr "low") (by rfl)
  · exact (h.2.2 "title").2.2 (by simp) (by rfl)
  · exact (h.2.2 "tags").2.2 (by simp) (by rfl)

/-! ## Retrieval lemmas -/

/-- A record passing `_matches_criteria` with a non-empty tag list shares
at least one tag with the request. -/
theorem tags_of_matchesCriteria {m : Memory} {cat mt ag : Option String}
    {ts : List String} (hts : ts ≠ [])
    (h : matchesCriteria m cat mt (some ts) ag = true) :
    ∃ t ∈ ts, t ∈ tagListOf m.content := by
  simp only [matchesCriteria] at h
  split_ifs at h with h1 h2 h3 h4
  have hgiven : tagsGiven (some ts) = true := by
    simp [tagsGiven, hts]
  have hany : (ts.any (fun t => (tagListOf m.content).contains t)) = true := by
    rcases Bool.eq_false_or_eq_true
        (ts.any fun t => (tagListOf m.content).contains t) with hc | hc
    · exact hc
    · exact absurd (by rw [hgiven, Option.getD_some, hc]; rfl) h4
  simp only [List.any_eq_true] at hany
  obtain ⟨t, ht, hmem⟩ := hany
  exact ⟨t, ht, by simpa using hmem⟩

/-- Unpacking a successful `get_memories` call: the result is the first
`limit` records of the survivor list sorted descending. -/
theorem getMemories_eq_some {store : Store} {cat mt : Option String}
    {tags : Option (List String)} {ag : Option String} {limit : Nat}
    {res : List Memory}
    (hres : getMemories store cat mt tags ag limit = some res) :
    res = (sortByCreatedDesc ((store.filter (inScan cat)).filter
      (fun m => matchesCriteria m cat mt tags ag))).take limit := by
  unfold getMemories at hres
  by_cases hall : ((store.filter (inScan cat)).filter
      (fun m => matchesCriteria m cat mt tags ag)).all
      (fun m => (sortKey? m).isSome) = true
  · rw [if_pos hall, Option.some.injEq] at hres
    exact hres.symm
  · rw [if_neg hall] at hres
    cases hres

/-! ## Claim C5: OR semantics of the tag filter -/

/-- C5: for every retrieve call given a non-empty tag list, every returned
record shares at least one requested tag (OR semantics), every record
whose tag set is disjoint from the request is excluded, and — whenever
`limit` does not truncate (it is at least the store size) — the result
contains every scanned record that passes all the filters. -/
theorem retrieve_tag_filter_or_semantics (store : Store)
    (cat mt ag : Option String) (ts : List String) (limit : Nat)
    (res : List Memory) (hts : ts ≠ [])
    (hres : getMemories store cat mt (some ts) ag limit = some res) :
    (∀ r ∈ res, ∃ t ∈ ts, t ∈ tagListOf r.content) ∧
    (∀ r, (∀ t ∈ ts, t ∉ tagListOf r.content) → r ∉ res) ∧
    (store.length ≤ limit → ∀ r ∈ store, inScan cat r = true →
      matchesCriteria r cat mt (some ts) ag = true → r ∈ res) := by
  have hform := getMemories_eq_some hres
  subst hform
  set survivors := (store.filter (inScan cat)).filter
    (fun m => matchesCriteria m cat mt (some ts) ag) with hsurv
  have hmem_of : ∀ r, r ∈ (sortByCreatedDesc survivors).take limit →
      matchesCriteria r cat mt (some ts) ag = true := by
    intro r hr
    have h₁ : r ∈ sortByCreatedDesc survivors := List.mem_of_mem_take hr
    have h₂ : r ∈ survivors := (perm_sortByCreatedDesc survivors).mem_iff.mp h₁
    exact (List.mem_filter.mp h₂).2
  refine ⟨?_, ?_, ?_⟩
  · intro r hr
    exact tags_of_matchesCriteria hts (hmem_of r hr)
  · intro r hdisj hr
    obtain ⟨t, ht, hmem⟩ := tags_of_matchesCriteria hts (hmem_of r hr)
    exact hdisj t ht hmem
  · intro hlimit r hr hscan hmatch
    have h₁ : r ∈ survivors := by
      rw [hsurv]
      exact List.mem_filter.mpr ⟨List.mem_filter.mpr ⟨hr, hscan⟩, hmatch⟩
    have h₂ : r ∈ sortByCreatedDesc survivors :=
      (perm_sortByCreatedDesc survivors).mem_iff.mpr h₁
    have hlen : (sortByCreatedDesc survivors).length ≤ limit := by
      have e₁ := (perm_sortByCreatedDesc survivors).length_eq
      have e₂ : survivors.length ≤ store.length :=
        le_trans (List.length_filter_le _ _) (List.length_filter_le _ _)
      omega
    rw [List.take_of_length_le hlen]
    exact h₂

/-- Witness for C5: retrieving `exStore` with tags `["x","q"]` returns
exactly `exMem1` (tags `["x","y"]`, intersecting) and excludes `exMem2`
(tags `["z"]`, disjoint). -/
theorem retrieve_tag_filter_or_semantics_witness :
    (∃ t ∈ ["x", "q"], t ∈ tagListOf exMem1.content) ∧
    exMem2 ∉ [exMem1] ∧
    exMem1 ∈ [exMem1] := by
  have h := retrieve_tag_filter_or_semantics exStore none none none
    ["x", "q"] 10 [exMem1] (by simp) (by rfl)
  refine ⟨h.1 exMem1 (List.mem_cons_self _ _), ?_, ?_⟩
  · refine h.2.1 exMem2 ?_
    intro t ht
    simp only [List.mem_cons, List.not_mem_nil, or_false,
      List.mem_singleton] at ht
    rcases ht with rfl | rfl <;> decide
  · exact h.2.2 (by simp [exStore]) exMem1
      (List.mem_cons_self _ _) (by rfl) (by rfl)

/-! ## Claim C6: create-retrieve round trip -/

/-- C6: for all valid inputs (a truthy category and type, a store whose
records all carry a usable `created_at`, and a limit that does not
truncate), `create` followed by `retrieve` filtered to that category and
type returns a record whose content fields — excluding the system-stamped
`created_at`, `last_updated` and `access_count` — equal the content passed
to `create`. -/
theorem create_then_retrieve_roundtrip (store : Store)
    (category memory_type : String) (content metadata : Dict)
    (agent : String) (now : Int) (limit : Nat)
    (hcat : category ≠ "") (hty : memory_type ≠ "")
    (hsort : ∀ m ∈ store, (sortKey? m).isSome = true)
    (hlimit : store.length + 1 ≤ limit) :
    ∃ res, getMemories (addMemory store category memory_type content
        metadata agent now).2 (some category) (some memory_type) none none
        limit = some res ∧
      ∃ r ∈ res, ∀ k, k ≠ "created_at" → k ≠ "last_updated" →
        k ≠ "access_count" → Dict.get? r.content k = Dict.get? content k := by
  set M := mkMemory category memory_type content metadata agent now with hM
  have hpost : (addMemory store category memory_type content metadata agent
      now).2 = saveMemoryFile store M := rfl
  have hMcreated : Dict.get? M.content "created_at" = some (.vInt now) := by
    rw [hM]
    show Dict.get? (Dict.insert (Dict.insert (Dict.insert content
      "created_at" (.vInt now)) "last_updated" (.vInt now)) "access_count"
      (.vInt 0)) "created_at" = some (.vInt now)
    rw [Dict.get_insert_of_ne _ _ _ _ (by simp),
      Dict.get_insert_of_ne _ _ _ _ (by simp), Dict.get_insert_self]
  have hMkey : sortKey? M = some now := by
    simp [sortKey?, hMcreated]
  have hall : ∀ x ∈ saveMemoryFile store M, (sortKey? x).isSome = true := by
    intro x hx
    rcases mem_of_mem_saveMemoryFile hx with rfl | hx
    · simp [hMkey]
    · exact hsort x hx
  set survivors := ((saveMemoryFile store M).filter
      (inScan (some category))).filter (fun m => matchesCriteria m
      (some category) (some memory_type) none none) with hsurv
  have hallsurv : survivors.all (fun m => (sortKey? m).isSome) = true := by
    rw [List.all_eq_true]
    intro x hx
    exact hall x (List.mem_filter.mp ((List.mem_filter.mp hx).1)).1
  have hres : getMemories (saveMemoryFile store M) (some category)
      (some memory_type) none none limit
      = some ((sortByCreatedDesc survivors).take limit) := by
    have hdef : getMemories (saveMemoryFile store M) (some category)
        (some memory_type) none none limit
        = if survivors.all (fun m => (sortKey? m).isSome)
          then some ((sortByCreatedDesc survivors).take limit) else none := rfl
    rw [hdef, if_pos hallsurv]
  have hMcat : M.category = category := rfl
  have hMty : M.type = memory_type := rfl
  have hscan : inScan (some category) M = true := by
    simp [inScan, strGiven, hcat, hMcat]
  have hmatch : matchesCriteria M (some category) (some memory_type) none
      none = true := by
    simp [matchesCriteria, strGiven, tagsGiven, hMcat, hMty]
  have hMsurv : M ∈ survivors := by
    rw [hsurv]
    exact List.mem_filter.mpr
      ⟨List.mem_filter.mpr ⟨mem_saveMemoryFile_self _ _, hscan⟩, hmatch⟩
  have hlen : (sortByCreatedDesc survivors).length ≤ limit := by
    have e₁ := (perm_sortByCreatedDesc survivors).length_eq
    have e₂ : survivors.length ≤ (saveMemoryFile store M).length :=
      le_trans (List.length_filter_le _ _) (List.length_filter_le _ _)
    have e₃ := length_saveMemoryFile store M
    omega
  refine ⟨(sortByCreatedDesc survivors).take limit, by rw [hpost, hres],
    M, ?_, ?_⟩
  · rw [List.take_of_length_le hlen]
    exact (perm_sortByCreatedDesc survivors).mem_iff.mpr hMsurv
  · intro k h1 h2 h3
    rw [hM]
    show Dict.get? (Dict.insert (Dict.insert (Dict.insert content
      "created_at" (.vInt now)) "last_updated" (.vInt now)) "access_count"
      (.vInt 0)) k = Dict.get? content k
    rw [Dict.get_insert_of_ne _ _ _ _ h3, Dict.get_insert_of_ne _ _ _ _ h2,
      Dict.get_insert_of_ne _ _ _ _ h1]

/-- Witness for C6: creating a `shared`/`note` record over `exStore` and
retrieving `shared`/`note` yields a record whose `title` matches the input
content. -/
theorem create_then_retrieve_roundtrip_witness :
    ∃ res, getMemories (addMemory exStore "shared" "note"
        [("title", Value.vStr "t")] [] "system" 500).2 (some "shared")
        (some "note") none none 10 = some res ∧
      ∃ r ∈ res, ∀ k, k ≠ "created_at" → k ≠ "last_updated" →
        k ≠ "access_count" →
        Dict.get? r.content k = Dict.get? [("title", Value.vStr "t")] k :=
  create_then_retrieve_roundtrip exStore "shared" "note"
    [("title", Value.vStr "t")] [] "system" 500 10 (by simp) (by simp)
    (by intro m hm
        simp only [exStore, List.mem_cons, List.not_mem_nil, or_false,
          List.mem_singleton] at hm
        rcases hm with rfl | rfl <;> rfl)
    (by simp [exStore])

/-! ## Claim C8: descending order by creation time and limit -/

/-- C8: for any three records created at times t1 < t2 < t3 that all
match a given filter (in any scan order), retrieve with that filter and
`limit = 2` returns exactly the records created at t3 and t2, in that
order: surviving records are sorted by `content.created_at` descending
and the first `limit` are returned. -/
theorem retrieve_sorts_newest_first_and_truncates (s : Store)
    (m1 m2 m3 : Memory) (t1 t2 t3 : Int) (cat mt : Option String)
    (tags : Option (List String)) (ag : Option String)
    (hperm : s.Perm [m1, m2, m3])
    (h1 : sortKey? m1 = some t1) (h2 : sortKey? m2 = some t2)
    (h3 : sortKey? m3 = some t3) (h12 : t1 < t2) (h23 : t2 < t3)
    (hm : ∀ m ∈ s, inScan cat m = true ∧
      matchesCriteria m cat mt tags ag = true) :
    getMemories s cat mt tags ag 2 = some [m3, m2] := by
  have hk1 : memKey m1 = t1 := by simp [memKey, h1]
  have hk2 : memKey m2 = t2 := by simp [memKey, h2]
  have hk3 : memKey m3 = t3 := by simp [memKey, h3]
  have hf1 : s.filter (inScan cat) = s :=
    List.filter_eq_self.mpr (fun a ha => (hm a ha).1)
  have hf2 : s.filter (fun m => matchesCriteria m cat mt tags ag) = s :=
    List.filter_eq_self.mpr (fun a ha => (hm a ha).2)
  have hall : (s.all (fun m => (sortKey? m).isSome)) = true := by
    rw [List.all_eq_true]
    intro x hx
    have hx3 : x ∈ [m1, m2, m3] := hperm.mem_iff.mp hx
    simp only [List.mem_cons, List.not_mem_nil, or_false] at hx3
    rcases hx3 with rfl | rfl | rfl
    · simp [h1]
    · simp [h2]
    · simp [h3]
  have hdef : getMemories s cat mt tags ag 2
      = if ((s.filter (inScan cat)).filter
            (fun m => matchesCriteria m cat mt tags ag)).all
            (fun m => (sortKey? m).isSome)
        then some ((sortByCreatedDesc ((s.filter (inScan cat)).filter
          (fun m => matchesCriteria m cat mt tags ag))).take 2)
        else none := rfl
  rw [hdef, hf1, hf2, if_pos hall]
  -- identify the sorted list
  have hLperm : (sortByCreatedDesc s).Perm [m1, m2, m3] :=
    (perm_sortByCreatedDesc s).trans hperm
  have hLsorted : (sortByCreatedDesc s).Sorted
      (fun a b => memKey b ≤ memKey a) := sorted_sortByCreatedDesc s
  have hmap_sorted : ((sortByCreatedDesc s).map memKey).Sorted (· ≥ ·) := by
    rw [List.Sorted, List.pairwise_map]
    exact hLsorted
  have htarget_sorted : ([t3, t2, t1] : List Int).Sorted (· ≥ ·) := by
    refine List.Pairwise.cons ?_ (List.Pairwise.cons ?_
      (List.pairwise_singleton _ _))
    · intro b hb
      simp only [List.mem_cons, List.not_mem_nil, or_false] at hb
      rcases hb with rfl | rfl <;> omega
    · intro b hb
      simp only [List.mem_cons, List.not_mem_nil, or_false] at hb
      subst hb
      omega
  have hmap_perm : ((sortByCreatedDesc s).map memKey).Perm [t3, t2, t1] := by
    have hmp := hLperm.map memKey
    have : ([m1, m2, m3].map memKey) = [t1, t2, t3] := by
      simp [hk1, hk2, hk3]
    rw [this] at hmp
    exact hmp.trans (([t1, t2, t3].reverse_perm).symm)
  have heq : (sortByCreatedDesc s).map memKey = [t3, t2, t1] :=
    List.eq_of_perm_of_sorted hmap_perm hmap_sorted htarget_sorted
  have hlen3 : (sortByCreatedDesc s).length = 3 := by
    have := congrArg List.length heq
    simpa using this
  obtain ⟨a, b, c, hL⟩ := List.length_eq_three.mp hlen3
  rw [hL] at heq hLperm
  simp only [List.map_cons, List.map_nil, List.cons.injEq, and_true] at heq
  obtain ⟨hka, hkb, hkc⟩ := heq
  have hmemof : ∀ x, x ∈ ([a, b, c] : List Memory) → x = m1 ∨ x = m2 ∨
      x = m3 := by
    intro x hx
    have hx3 : x ∈ [m1, m2, m3] := hLperm.mem_iff.mp hx
    simpa only [List.mem_cons, List.not_mem_nil, or_false] using hx3
  have ha : a = m3 := by
    rcases hmemof a (by simp) with rfl | rfl | rfl
    · rw [hk1] at hka; omega
    · rw [hk2] at hka; omega
    · rfl
  have hb : b = m2 := by
    rcases hmemof b (by simp) with rfl | rfl | rfl
    · rw [hk1] at hkb; omega
    · rfl
    · rw [hk3] at hkb; omega
  rw [hL, ha, hb]
  rfl

/-- Witness for C8: three records created at 10 < 20 < 30, all matching
the tag filter `["w"]`, retrieved with limit 2, come back newest first:
the records from times 30 and 20, in that order. -/
theorem retrieve_sorts_newest_first_and_truncates_witness :
    getMemories [ordA, ordB, ordC] none none (some ["w"]) none 2
      = some [ordC, ordB] :=
  retrieve_sorts_newest_first_and_truncates [ordA, ordB, ordC]
    ordA ordB ordC 10 20 30 none none (some ["w"]) none
    (List.Perm.refl _) (by rfl) (by rfl) (by rfl) (by omega) (by omega)
    (by
      intro m hm
      simp only [List.mem_cons, List.not_mem_nil, or_false] at hm
      rcases hm with rfl | rfl | rfl <;> exact ⟨by rfl, by rfl⟩)
